import Mathlib

/-!
Verification of the retrieval-augmented reading assistant core.

This file gives a shallow embedding of:
* the Task Channel Client (`src/lib/workerClient.ts`, class `WorkerClient`);
* the vector-index worker (`rag.worker.ts`: `INDEX_CHUNK`, `SEARCH`, `CLEAR`);
* the chunker (`parser.worker.ts`, function `chunkBookContent`);
* the retry wrapper (`src/services/ai.ts`, function `fetchWithRetry`);
* the embedding cache (`src/services/db.ts`, `saveEmbeddingsBatch`,
  `getBookEmbeddings`) and staleness validation (`rag.ts`, `validateIndex`,
  `indexChunksWithEmbeddings`).

JavaScript numbers are modelled as `ℚ`/`ℤ`/`ℕ`; `Math.sqrt` is an explicit
function parameter; `Int8Array` conversion is exact integer truncation with
wraparound modulo 2^8.
-/

namespace ReadBook

/-! ## Task Channel Client (`WorkerClient`) -/

/-- A queued fire-and-forget send: `{ type, payload }`. -/
structure QItem where
  qtype : String
  payload : String
deriving DecidableEq, Repr

/-- Rejection conditions a pending promise can fail with. -/
inductive ErrKind where
  | timeout
  | workerCrashed
  | terminated
  | remote (msg : String)
deriving DecidableEq, Repr

/-- State of a `WorkerClient`.  `pending` holds the keys of the
`pending : Map<string, PendingRequest>`; `posted` logs every
`worker.postMessage` in order; `rejected` logs every promise rejection. -/
structure WCState where
  pending : List String
  queue : List QItem
  inFlight : Nat
  maxConcurrent : Nat
  idCounter : Nat
  posted : List (String × QItem)
  rejected : List (String × ErrKind)
deriving DecidableEq, Repr

/-- Fresh client: all counters zero, queue empty
(`maxConcurrent` from the constructor options, default 10). -/
def WCState.init (maxC : Nat) : WCState :=
  { pending := [], queue := [], inFlight := 0, maxConcurrent := maxC,
    idCounter := 0, posted := [], rejected := [] }

/-- Model of `sendImmediate`: bump the id counter, increment `inFlight`,
post the message. -/
def sendImmediate (st : WCState) (it : QItem) : WCState :=
  { st with idCounter := st.idCounter + 1,
            inFlight := st.inFlight + 1,
            posted := st.posted ++ [("fire_" ++ toString (st.idCounter + 1), it)] }

/-- The `while (queue.length > 0 && inFlight < maxConcurrent)` loop of
`processQueue`, recursing on the queue being drained. -/
def drainQueue : List QItem → WCState → WCState
  | [], st => { st with queue := [] }
  | it :: rest, st =>
    if st.inFlight < st.maxConcurrent then
      drainQueue rest (sendImmediate st it)
    else
      { st with queue := it :: rest }

/-- Model of `processQueue`: dispatch queued sends while below the concurrency limit. -/
def processQueue (st : WCState) : WCState :=
  drainQueue st.queue st

/-- Model of `send(type, payload)`: dispatch immediately when under the limit,
otherwise append to the queue. -/
def wcSend (st : WCState) (it : QItem) : WCState :=
  if st.inFlight < st.maxConcurrent then sendImmediate st it
  else { st with queue := st.queue ++ [it] }

/-- Model of `request(type, payload)`: register a pending entry, increment
`inFlight` (no concurrency-limit check), post the message. -/
def wcRequest (st : WCState) (it : QItem) : WCState :=
  { st with idCounter := st.idCounter + 1,
            pending := st.pending ++ ["req_" ++ toString (st.idCounter + 1)],
            inFlight := st.inFlight + 1,
            posted := st.posted ++ [("req_" ++ toString (st.idCounter + 1), it)] }

/-- The `worker.onmessage` handler for a response carrying correlation id
`id` and optional error string. -/
def onResponse (st : WCState) (id : String) (error : Option String) : WCState :=
  if id ∈ st.pending then
    let st' := processQueue { st with pending := st.pending.filter (· ≠ id),
                                      inFlight := st.inFlight - 1 }
    match error with
    | some e => { st' with rejected := st'.rejected ++ [(id, .remote e)] }
    | none => st'
  else
    processQueue { st with inFlight := st.inFlight - 1 }

/-- The timer callback armed by `request`: purge the pending entry,
decrement `inFlight`, advance the queue, reject with `Timeout`. -/
def timeoutFire (st : WCState) (id : String) : WCState :=
  let st' := processQueue { st with pending := st.pending.filter (· ≠ id),
                                    inFlight := st.inFlight - 1 }
  { st' with rejected := st'.rejected ++ [(id, .timeout)] }

/-- Model of `worker.onerror`: reject every pending request, reset `inFlight`,
clear the queue. -/
def onWorkerError (st : WCState) : WCState :=
  { st with rejected := st.rejected ++ st.pending.map (fun id => (id, ErrKind.workerCrashed)),
            pending := [], inFlight := 0, queue := [] }

/-- Model of `terminate()`: reject every pending request, clear everything. -/
def wcTerminate (st : WCState) : WCState :=
  { st with rejected := st.rejected ++ st.pending.map (fun id => (id, ErrKind.terminated)),
            pending := [], inFlight := 0, queue := [] }

/-- States reachable from a fresh client by any interleaving of events. -/
inductive Reachable : WCState → Prop where
  | init (maxC : Nat) : Reachable (WCState.init maxC)
  | send {st : WCState} (it : QItem) : Reachable st → Reachable (wcSend st it)
  | request {st : WCState} (it : QItem) : Reachable st → Reachable (wcRequest st it)
  | response {st : WCState} (id : String) (err : Option String) :
      Reachable st → Reachable (onResponse st id err)
  | timeout {st : WCState} (id : String) : id ∈ st.pending →
      Reachable st → Reachable (timeoutFire st id)
  | workerError {st : WCState} : Reachable st → Reachable (onWorkerError st)
  | terminate {st : WCState} : Reachable st → Reachable (wcTerminate st)

/-- Model of `getQueueStatus()`. -/
def getQueueStatus (st : WCState) : Nat × Nat :=
  (st.inFlight, st.queue.length)

/-- C9.  `request()` never consults `maxConcurrent` or the queue: iterating
`request` k times always adds k to the in-flight counter, posts k messages,
and leaves the queue untouched — no matter how small `maxConcurrent` is. -/
def requestN (st : WCState) (it : QItem) : Nat → WCState
  | 0 => st
  | k + 1 => wcRequest (requestN st it k) it

/-! ## Chunker (`parser.worker.ts`, `chunkBookContent`) -/

/-- A chapter `{id, title, body}` (body may contain markup).
Strings are modelled as lists of characters. -/
structure BookSection where
  id : String
  title : String
  body : List Char
deriving DecidableEq, Repr, Inhabited

/-- A `TextChunk`: `{id, chapterId, chapterTitle, content}`. -/
structure TextChunk where
  id : String
  chapterId : String
  chapterTitle : String
  content : List Char
deriving DecidableEq, Repr, Inhabited

/-- JavaScript `\s` (the whitespace characters relevant here). -/
def isJsWs (c : Char) : Bool :=
  c = ' ' || c = '\t' || c = '\n' || c = '\r' || c = '\x0b' || c = '\x0c'

/-- Single pass of `.replace(/<[^>]*>/g, ' ')`.  The second argument is
`some buf` while scanning a potential tag `buf` that started with `<`; if
the input ends before a `>` the buffered characters were not part of any
match and are emitted literally. -/
def stripTagsGo : List Char → Option (List Char) → List Char
  | [], none => []
  | [], some buf => buf
  | c :: rest, none =>
    if c = '<' then stripTagsGo rest (some [c]) else c :: stripTagsGo rest none
  | c :: rest, some buf =>
    if c = '>' then ' ' :: stripTagsGo rest none
    else stripTagsGo rest (some (buf ++ [c]))

/-- Model of `.replace(/<[^>]*>/g, ' ')`. -/
def stripTags (l : List Char) : List Char := stripTagsGo l none

/-- Model of `.replace(/\s+/g, ' ')`: collapse every whitespace run to one space.
The boolean records whether the previous character was whitespace. -/
def collapseWsGo : Bool → List Char → List Char
  | _, [] => []
  | prevWs, c :: rest =>
    if isJsWs c then
      if prevWs then collapseWsGo true rest
      else ' ' :: collapseWsGo true rest
    else c :: collapseWsGo false rest

/-- Model of `.replace(/\s+/g, ' ')`. -/
def collapseWs (l : List Char) : List Char := collapseWsGo false l

/-- Model of `.trim()`. -/
def jsTrim (l : List Char) : List Char :=
  ((l.dropWhile isJsWs).reverse.dropWhile isJsWs).reverse

/-- The chapter-cleaning pipeline:
`chapter.body.replace(/<[^>]*>/g,' ').replace(/\s+/g,' ').trim()`. -/
def cleanChapterText (body : List Char) : List Char :=
  jsTrim (collapseWs (stripTags body))

/-- Clamp a (possibly negative) JavaScript `slice` index into `[0, len]`. -/
def jsSliceIdx (len : Nat) (i : ℤ) : Nat :=
  if i < 0 then ((len : ℤ) + i).toNat else min i.toNat len

/-- Model of `String.prototype.slice(a, b)`. -/
def jsSlice (s : List Char) (a b : ℤ) : List Char :=
  (s.take (jsSliceIdx s.length b)).drop (jsSliceIdx s.length a)

/-- The `while (start < plainText.length)` window loop of
`chunkBookContent`, one chapter at a time.  JavaScript numbers are `ℤ`;
the loop carries `start` and `chunkIndex` and is bounded by explicit fuel
(`none` means the fuel ran out before the loop finished). -/
def chunkChapterLoop (text : List Char) (chId chTitle : String)
    (chunkSize overlap : ℤ) : Nat → ℤ → Nat → Option (List TextChunk)
  | 0, _, _ => none
  | fuel + 1, start, chunkIndex =>
    if start < (text.length : ℤ) then
      match chunkChapterLoop text chId chTitle chunkSize overlap fuel
              (start + (chunkSize - overlap)) (chunkIndex + 1) with
      | none => none
      | some rest =>
        some ({ id := chId ++ "-chunk-" ++ toString chunkIndex,
                chapterId := chId, chapterTitle := chTitle,
                content := jsSlice text start
                  (min (start + chunkSize) (text.length : ℤ)) } :: rest)
    else some []

/-- Model of `chunkBookContent(chapters, chunkSize, overlap)`: clean each chapter,
skip it when the cleaned text is shorter than 50 characters, otherwise run
the window loop. -/
def chunkBookContent (fuel : Nat) (chapters : List BookSection)
    (chunkSize overlap : ℤ) : Option (List TextChunk) :=
  match chapters with
  | [] => some []
  | ch :: rest =>
    let plainText := cleanChapterText ch.body
    if plainText.length < 50 then chunkBookContent fuel rest chunkSize overlap
    else
      match chunkChapterLoop plainText ch.id ch.title chunkSize overlap fuel 0 0,
            chunkBookContent fuel rest chunkSize overlap with
      | some cs, some css => some (cs ++ css)
      | _, _ => none

/-- Chunks `a` and `b` overlap by exactly `ov` characters: the last `ov`
characters of `a` are the first `ov` characters of `b`. -/
def ExactOverlap (a b : TextChunk) (ov : Nat) : Prop :=
  ov ≤ a.content.length ∧ ov ≤ b.content.length ∧
  a.content.drop (a.content.length - ov) = b.content.take ov

instance (a b : TextChunk) (ov : Nat) : Decidable (ExactOverlap a b ov) := by
  unfold ExactOverlap; infer_instance

/-- A 65-character chapter used as concrete input. -/
def sampleChapter : BookSection := ⟨"ch1", "T", List.replicate 65 'a'⟩

/-! ## Vector index worker (`rag.worker.ts`) -/

/-- Worker-side index state: flat vector buffer (`Float32Array | null`,
zero-initialised on allocation), parallel id list, latched dimension, row
count. -/
structure RagState where
  vectors : Option (List ℚ)
  ids : List String
  dimension : Nat
  count : Nat
deriving DecidableEq, Repr

/-- Initial worker state. -/
def RagState.init : RagState := ⟨none, [], 0, 0⟩

/-- Messages the worker posts back. -/
inductive OutMsg where
  | searchResult (id : String) (results : List (String × ℚ))
  | clearComplete (id : String)
  | error (id : String) (msg : String)
deriving DecidableEq, Repr

/-- Model of `TypedArray.prototype.set(xs, off)` on a buffer long enough. -/
def listSet (buf : List ℚ) (off : Nat) (xs : List ℚ) : List ℚ :=
  buf.take off ++ xs ++ buf.drop (off + xs.length)

/-- The `INDEX_CHUNK` handler: latch the dimension on first insert, reject
a mismatching length with an error reply, otherwise grow the buffer if the
next row would overflow, write the vector, append the id, bump the count. -/
def handleIndexChunk (st : RagState) (msgId chunkId : String)
    (embedding : List ℚ) : RagState × Option OutMsg :=
  let dim := embedding.length
  let st1 := if st.dimension = 0 then { st with dimension := dim } else st
  if dim ≠ st1.dimension then
    (st1, some (.error msgId ("Dimension mismatch: expected "
      ++ toString st1.dimension ++ ", got " ++ toString dim)))
  else
    let buf :=
      match st1.vectors with
      | none => List.replicate (max 1000 (st1.count + 500) * st1.dimension) (0 : ℚ)
      | some v =>
        if st1.count * st1.dimension ≥ v.length then
          v ++ List.replicate (max 1000 (st1.count + 500) * st1.dimension
                  - v.length) (0 : ℚ)
        else v
    ({ st1 with vectors := some (listSet buf (st1.count * st1.dimension) embedding),
                ids := st1.ids ++ [chunkId],
                count := st1.count + 1 }, none)

/-- The ascending `for (j = 0; j < n; j++) acc += f(j)` accumulation. -/
def loopSum (f : Nat → ℚ) : Nat → ℚ
  | 0 => 0
  | n + 1 => loopSum f n + f n

/-- Stable insertion into a descending-by-score list: the new element goes
before the first element whose score is ≤ its own. -/
def sortInsert (x : String × ℚ) : List (String × ℚ) → List (String × ℚ)
  | [] => [x]
  | y :: ys => if y.2 ≤ x.2 then x :: y :: ys else y :: sortInsert x ys

/-- Model of `scores.sort((a, b) => b.score - a.score)`:
`Array.prototype.sort` is stable and this comparator orders by descending
score, so the result is the stable descending sort, computed here by
insertion (proved below to be the unique permutation that is sorted
descending with ties in original order). -/
def stableSortDesc : List (String × ℚ) → List (String × ℚ)
  | [] => []
  | x :: xs => sortInsert x (stableSortDesc xs)

/-- The `SEARCH` handler: empty index answers an empty result list;
otherwise score every stored row against the query, sort descending by
score (stable), and reply with the first `topK` pairs. -/
def handleSearch (sqrtFn : ℚ → ℚ) (st : RagState) (msgId : String)
    (q : List ℚ) (topK : Nat) : OutMsg :=
  match st.vectors with
  | none => .searchResult msgId []
  | some buf =>
    if st.count = 0 then .searchResult msgId []
    else
      let scores := (List.range st.count).map (fun i =>
        let off := i * st.dimension
        let dot := loopSum (fun j => q.getD j 0 * buf.getD (off + j) 0) st.dimension
        let normA := loopSum (fun j => q.getD j 0 * q.getD j 0) st.dimension
        let normB := loopSum (fun j => buf.getD (off + j) 0 * buf.getD (off + j) 0)
          st.dimension
        (st.ids.getD i "", dot / (sqrtFn normA * sqrtFn normB + 1 / 100000000)))
      .searchResult msgId ((stableSortDesc scores).take topK)

/-- The `CLEAR` handler. -/
def handleClear (st : RagState) (msgId : String) : RagState × OutMsg :=
  (RagState.init, .clearComplete msgId)

/-- The dot product `dot(q, v)` over the common prefix of the two vectors. -/
def dotProd (q v : List ℚ) : ℚ := ((q.zip v).map fun p => p.1 * p.2).sum

/-- The squared norm `||v||²`. -/
def normSq (v : List ℚ) : ℚ := dotProd v v

/-- The claimed score: `dot(q, v) / (||q|| * ||v|| + 1e-8)`, with the
square root as an explicit function (the model of `Math.sqrt`). -/
def cosineScore (sqrtFn : ℚ → ℚ) (q v : List ℚ) : ℚ :=
  dotProd q v / (sqrtFn (normSq q) * sqrtFn (normSq v) + 1 / 100000000)

/-- Row `i` of the flat buffer. -/
def rowOf (dim : Nat) (buf : List ℚ) (i : Nat) : List ℚ :=
  (buf.drop (i * dim)).take dim

/-- The `(id, score)` list in insertion order, scored by `cosineScore`
against every stored row. -/
def specScores (sqrtFn : ℚ → ℚ) (st : RagState) (buf : List ℚ)
    (q : List ℚ) : List (String × ℚ) :=
  (List.range st.count).map fun i =>
    (st.ids.getD i "", cosineScore sqrtFn q (rowOf st.dimension buf i))

/-- Strict "comes strictly before" order on index-tagged scored entries:
higher score first, ties broken by lower original index. -/
def lexAfter (a b : Nat × String × ℚ) : Prop :=
  b.2.2 < a.2.2 ∨ (a.2.2 = b.2.2 ∧ a.1 < b.1)

/-- The insertion `sortInsert` lifted to index-tagged entries (the guard only inspects
the score). -/
def lexInsert (p : Nat × String × ℚ) :
    List (Nat × String × ℚ) → List (Nat × String × ℚ)
  | [] => [p]
  | y :: ys => if y.2.2 ≤ p.2.2 then p :: y :: ys else y :: lexInsert p ys

/-! ## Provider retry (`ai.ts`, `fetchWithRetry`) -/

/-- Outcome of one `fetch(url, options)` call: an HTTP response with a
status code, or a thrown network error. -/
inductive FetchOutcome where
  | resp (status : Nat)
  | netError
deriving DecidableEq, Repr

/-- Result of `fetchWithRetry`: a returned response (with how many fetches
were made and which backoff delays were slept), or a final throw. -/
inductive RetryRes where
  | returned (status : Nat) (fetchCount : Nat) (delays : List ℚ)
  | threw (fetchCount : Nat) (delays : List ℚ)
deriving DecidableEq, Repr

/-- Number of fetch attempts actually made. -/
def RetryRes.fetchCount : RetryRes → Nat
  | .returned _ n _ => n
  | .threw n _ => n

/-- Backoff delays slept, in order. -/
def RetryRes.delays : RetryRes → List ℚ
  | .returned _ _ ds => ds
  | .threw _ ds => ds

/-- Account for one more fetch and, for a retried attempt, its delay. -/
def addAttempt (d : Option ℚ) : RetryRes → RetryRes
  | .returned s n ds => .returned s (n + 1) ((d.toList) ++ ds)
  | .threw n ds => .threw (n + 1) ((d.toList) ++ ds)

/-- JavaScript `response.ok` (status in 200..299). -/
def statusOk (s : Nat) : Prop := 200 ≤ s ∧ s < 300

instance (s : Nat) : Decidable (statusOk s) := by unfold statusOk; infer_instance

/-- An attempt the loop retries after: 5xx, 429, or a thrown network
error. -/
def retryable : FetchOutcome → Prop
  | .resp s => 500 ≤ s ∨ s = 429
  | .netError => True

instance (o : FetchOutcome) : Decidable (retryable o) := by
  cases o <;> unfold retryable <;> infer_instance

/-- The `for (let i = 0; i < maxRetries; i++)` loop of `fetchWithRetry`.
`oc i` is what the `i`-th `fetch` does; `jit i` models `Math.random() *
1000` for attempt `i`; the delay before retrying attempt `i` is
`2^i * 1000 + jit i`.  When the loop ends without returning, the function
throws. -/
def retryGo (oc : Nat → FetchOutcome) (jit : Nat → ℚ) : Nat → Nat → RetryRes
  | _, 0 => .threw 0 []
  | i, n + 1 =>
    match oc i with
    | .resp s =>
      if statusOk s then .returned s 1 []
      else if 500 ≤ s ∨ s = 429 then
        addAttempt (some (2 ^ i * 1000 + jit i)) (retryGo oc jit (i + 1) n)
      else .returned s 1 []
    | .netError =>
      addAttempt (some (2 ^ i * 1000 + jit i)) (retryGo oc jit (i + 1) n)

/-- Model of `fetchWithRetry(url, options, maxRetries = 3)`. -/
def fetchWithRetry (oc : Nat → FetchOutcome) (jit : Nat → ℚ)
    (maxRetries : Nat := 3) : RetryRes :=
  retryGo oc jit 0 maxRetries

/-- The status of a returned response, `none` on a throw. -/
def RetryRes.statusQ : RetryRes → Option Nat
  | .returned s _ _ => some s
  | .threw _ _ => none

/-! ## Embedding cache (`db.ts`) and staleness validation (`rag.ts`) -/

/-- Metadata of one embedding record (`model?` and `dimensions?` are both
optional in the store schema). -/
structure EmbMeta where
  model : Option String
  dimensions : Option Nat
deriving DecidableEq, Repr

/-- Model of `validateIndex(bookId, config)`: vacuously valid with no metadata
record; invalid exactly when both the configured embedding model and the
stored model are truthy (present and non-empty) and differ. -/
def validateIndex (meta : Option EmbMeta) (configModel : Option String) :
    Bool × Option String :=
  match meta with
  | none => (true, none)
  | some m =>
    match configModel, m.model with
    | some cm, some mm =>
      if cm ≠ "" ∧ mm ≠ "" ∧ mm ≠ cm then
        (false, some ("Model mismatch: index=" ++ mm ++ ", config=" ++ cm))
      else (true, none)
    | _, _ => (true, none)

/-- Observable effects of `indexChunksWithEmbeddings`, in program order. -/
inductive PipelineEffect where
  | clearEmbeddings (bookId : String)
  | loadCache (bookId : String)
  | sendIndexChunk (chunkId : String)
  | embedBatch (texts : List (List Char))
  | saveBatch (bookId : String) (n : Nat) (model : Option String)
deriving DecidableEq, Repr

/-- Cut a list into consecutive batches of `k` (fuel = list length). -/
def batchesOfAux (k : Nat) : Nat → List TextChunk → List (List TextChunk)
  | 0, _ => []
  | _, [] => []
  | fuel + 1, l => l.take k :: batchesOfAux k fuel (l.drop k)

/-- The batching loop `for (let i = 0; i < uncached.length; i += BATCH_SIZE)`. -/
def batchesOf (k : Nat) (l : List TextChunk) : List (List TextChunk) :=
  batchesOfAux k l.length l

/-- Effect trace of `indexChunksWithEmbeddings(chunks, config, bookId)`:
validate, clear on invalid, load the cache, send cached chunks one-way (in
chunk order), then per 50-chunk batch one provider embedding call followed
by that batch's one-way sends, and one persistence write at the end when
anything new was embedded.  `cached` is the set of chunk ids present in
the persisted store. -/
def indexChunksTrace (bookId : String) (meta : Option EmbMeta)
    (configModel : Option String) (cached : List String)
    (chunks : List TextChunk) : List PipelineEffect :=
  let validation := validateIndex meta configModel
  let pre := if validation.1 = false
    then [PipelineEffect.clearEmbeddings bookId] else []
  let cachedSends := (chunks.filter (fun c => c.id ∈ cached)).map
    (fun c => PipelineEffect.sendIndexChunk c.id)
  let uncached := chunks.filter (fun c => c.id ∉ cached)
  let batchEffs := (batchesOf 50 uncached).flatMap
    (fun b => PipelineEffect.embedBatch (b.map TextChunk.content)
        :: b.map (fun c => PipelineEffect.sendIndexChunk c.id))
  let save := if uncached.length ≠ 0
    then [PipelineEffect.saveBatch bookId uncached.length configModel] else []
  pre ++ PipelineEffect.loadCache bookId :: (cachedSends ++ batchEffs ++ save)

/-! ## 8-bit persistence (`db.ts`, `saveEmbeddingsBatch` /
`getBookEmbeddings`) -/

/-- JavaScript `ToInteger` truncation (toward zero) of a rational. -/
def truncRat (q : ℚ) : ℤ := if 0 ≤ q then ⌊q⌋ else -⌊-q⌋

/-- The `Int8Array` element conversion: truncate toward zero, then wrap
modulo 2^8 into `[-128, 128)`. -/
def toInt8 (q : ℚ) : ℤ := ((truncRat q + 128) % 256) - 128

/-- A persisted embedding record (`embedding` is the Int8 data). -/
structure EmbRecord where
  bookId : String
  chunkId : String
  embedding : List ℤ
  model : Option String
  dimensions : Nat
deriving DecidableEq, Repr

/-- Model of `store.put` under the composite key `(bookId, chunkId)`. -/
def putRecord (store : List EmbRecord) (r : EmbRecord) : List EmbRecord :=
  (store.filter fun x => ¬ (x.bookId = r.bookId ∧ x.chunkId = r.chunkId)) ++ [r]

/-- Model of `saveEmbeddingsBatch(bookId, embeddings, model)`: one transaction,
each vector converted with `new Int8Array(e.embedding)`. -/
def saveEmbeddingsBatch (store : List EmbRecord) (bookId : String)
    (embeddings : List (String × List ℚ)) (model : Option String) :
    List EmbRecord :=
  embeddings.foldl (fun s e => putRecord s
    { bookId := bookId, chunkId := e.1, embedding := e.2.map toInt8,
      model := model, dimensions := (e.2.map toInt8).length }) store

/-- Model of `getBookEmbeddings(bookId)`: all records of the book, each Int8 vector
re-hydrated with `Array.from` into a number array. -/
def getBookEmbeddings (store : List EmbRecord) (bookId : String) :
    List (String × List ℚ) :=
  (store.filter fun r => r.bookId = bookId).map
    fun r => (r.chunkId, r.embedding.map (fun z : ℤ => (z : ℚ)))

/-! ## Theorems -/

theorem sendImmediate_queue (st : WCState) (it : QItem) :
    (sendImmediate st it).queue = st.queue := rfl

theorem sendImmediate_maxConcurrent (st : WCState) (it : QItem) :
    (sendImmediate st it).maxConcurrent = st.maxConcurrent := rfl

theorem drainQueue_pending (q : List QItem) (st : WCState) :
    (drainQueue q st).pending = st.pending := by
  induction q generalizing st with
  | nil => rfl
  | cons it rest ih =>
    by_cases hc : st.inFlight < st.maxConcurrent
    · rw [drainQueue, if_pos hc]; exact ih _
    · rw [drainQueue, if_neg hc]

theorem drainQueue_rejected (q : List QItem) (st : WCState) :
    (drainQueue q st).rejected = st.rejected := by
  induction q generalizing st with
  | nil => rfl
  | cons it rest ih =>
    by_cases hc : st.inFlight < st.maxConcurrent
    · rw [drainQueue, if_pos hc]; exact ih _
    · rw [drainQueue, if_neg hc]

theorem processQueue_pending (st : WCState) :
    (processQueue st).pending = st.pending :=
  drainQueue_pending st.queue st

theorem processQueue_rejected (st : WCState) :
    (processQueue st).rejected = st.rejected :=
  drainQueue_rejected st.queue st

/-- After a drain, either the queue is empty or the in-flight count has
reached the concurrency ceiling. -/
theorem drainQueue_invariant (q : List QItem) (st : WCState) :
    (drainQueue q st).queue ≠ [] →
    (drainQueue q st).maxConcurrent ≤ (drainQueue q st).inFlight := by
  induction q generalizing st with
  | nil => intro h; simp [drainQueue] at h
  | cons it rest ih =>
    intro h
    by_cases hc : st.inFlight < st.maxConcurrent
    · rw [drainQueue, if_pos hc] at h ⊢
      exact ih _ h
    · rw [drainQueue, if_neg hc] at h ⊢
      exact Nat.le_of_not_lt hc

theorem processQueue_invariant (st : WCState) :
    (processQueue st).queue ≠ [] →
    (processQueue st).maxConcurrent ≤ (processQueue st).inFlight :=
  drainQueue_invariant st.queue st

/-- A drain dispatches some prefix of the queue, in order, and leaves the
matching suffix queued. -/
theorem drainQueue_fifo (q : List QItem) (st : WCState) :
    ∃ n, (drainQueue q st).posted.map Prod.snd
            = st.posted.map Prod.snd ++ q.take n ∧
         (drainQueue q st).queue = q.drop n := by
  induction q generalizing st with
  | nil => exact ⟨0, by simp [drainQueue]⟩
  | cons it rest ih =>
    by_cases hc : st.inFlight < st.maxConcurrent
    · rw [drainQueue, if_pos hc]
      obtain ⟨n, h1, h2⟩ := ih (sendImmediate st it)
      refine ⟨n + 1, ?_, by simpa using h2⟩
      rw [h1]
      simp [sendImmediate]
    · rw [drainQueue, if_neg hc]
      exact ⟨0, by simp⟩

theorem processQueue_fifo (st : WCState) :
    ∃ n, (processQueue st).posted.map Prod.snd
            = st.posted.map Prod.snd ++ st.queue.take n ∧
         (processQueue st).queue = st.queue.drop n :=
  drainQueue_fifo st.queue st

/-- The backpressure invariant holds in every reachable state. -/
theorem reachable_backpressure {st : WCState} (h : Reachable st) :
    st.queue ≠ [] → st.maxConcurrent ≤ st.inFlight := by
  induction h with
  | init maxC => intro h; simp [WCState.init] at h
  | @send st it _ ih =>
    intro hq
    by_cases hc : st.inFlight < st.maxConcurrent
    · rw [wcSend, if_pos hc] at hq ⊢
      have hq' : st.queue ≠ [] := hq
      exact le_trans (ih hq') (Nat.le_succ _)
    · rw [wcSend, if_neg hc] at hq ⊢
      exact Nat.le_of_not_lt hc
  | @request st it _ ih =>
    intro hq
    have hq' : st.queue ≠ [] := hq
    exact le_trans (ih hq') (Nat.le_succ _)
  | @response st id err _ ih =>
    intro hq
    rw [onResponse] at hq ⊢
    by_cases hmem : id ∈ st.pending
    · rw [if_pos hmem] at hq ⊢
      cases err with
      | some e => exact processQueue_invariant _ (by simpa using hq)
      | none => exact processQueue_invariant _ hq
    · rw [if_neg hmem] at hq ⊢
      exact processQueue_invariant _ hq
  | @timeout st id hid _ ih =>
    intro hq
    rw [timeoutFire] at hq ⊢
    exact processQueue_invariant _ (by simpa using hq)
  | workerError _ ih => intro hq; simp [onWorkerError] at hq
  | terminate _ ih => intro hq; simp [wcTerminate] at hq

/-- C1.  Backpressure invariant of the Task Channel Client: in every
reachable state, the queued-send list is non-empty only when the in-flight
counter has reached `maxConcurrent`; and whenever capacity frees
(`processQueue` runs), queued sends are dispatched in FIFO order — the
dispatched messages are a prefix of the queue, posted in queue order, and
the remaining queue is the matching suffix. -/
theorem workerClient_backpressure_invariant :
    (∀ st : WCState, Reachable st → st.queue ≠ [] →
        st.maxConcurrent ≤ st.inFlight) ∧
    (∀ st : WCState, ∃ n,
        (processQueue st).posted.map Prod.snd
            = st.posted.map Prod.snd ++ st.queue.take n ∧
        (processQueue st).queue = st.queue.drop n) :=
  ⟨fun _ h => reachable_backpressure h, processQueue_fifo⟩

/-- Witness for C1 at a concrete reachable state: `maxConcurrent = 1`,
two sends — the second queues, and the invariant holds there. -/
theorem workerClient_backpressure_invariant_witness :
    (wcSend (wcSend (WCState.init 1) ⟨"A", "a"⟩) ⟨"B", "b"⟩).queue ≠ [] ∧
    (wcSend (wcSend (WCState.init 1) ⟨"A", "a"⟩) ⟨"B", "b"⟩).maxConcurrent ≤
      (wcSend (wcSend (WCState.init 1) ⟨"A", "a"⟩) ⟨"B", "b"⟩).inFlight := by
  refine ⟨by decide, ?_⟩
  exact workerClient_backpressure_invariant.1 _
    (Reachable.send _ (Reachable.send _ (Reachable.init 1))) (by decide)

/-- C9.  The concurrency cap applies only to `send()`, never to `request()`:
k consecutive `request()` calls from any state increment the in-flight
counter by exactly k and post k messages immediately, with the queue
unchanged — in particular, from a fresh client the in-flight count equals k
even when k exceeds `maxConcurrent`. -/
theorem request_ignores_concurrency_cap :
    (∀ (st : WCState) (it : QItem) (k : Nat),
        (requestN st it k).inFlight = st.inFlight + k ∧
        (requestN st it k).queue = st.queue ∧
        (requestN st it k).posted.length = st.posted.length + k) ∧
    (∀ (maxC k : Nat) (it : QItem),
        (requestN (WCState.init maxC) it k).inFlight = k) := by
  have main : ∀ (st : WCState) (it : QItem) (k : Nat),
      (requestN st it k).inFlight = st.inFlight + k ∧
      (requestN st it k).queue = st.queue ∧
      (requestN st it k).posted.length = st.posted.length + k := by
    intro st it k
    induction k with
    | zero => simp [requestN]
    | succ k ih =>
      obtain ⟨h1, h2, h3⟩ := ih
      refine ⟨?_, by simpa [requestN, wcRequest] using h2, ?_⟩
      · simp [requestN, wcRequest, h1]; omega
      · simp [requestN, wcRequest, h3]; omega
  exact ⟨main, fun maxC k it => by simpa [WCState.init] using (main (WCState.init maxC) it k).1⟩

/-- C6.  Timeout semantics: firing the timer of a pending request `id`
(1) removes the pending entry, (2) appends a `Timeout` rejection for `id`,
(3) with an empty queue, `getQueueStatus` shows the slot reclaimed —
in-flight decremented and nothing queued, and (4) in general the freed
capacity advances queued sends in FIFO order. -/
theorem request_timeout_semantics (st : WCState) (id : String)
    (hid : id ∈ st.pending) :
    id ∉ (timeoutFire st id).pending ∧
    (timeoutFire st id).rejected = st.rejected ++ [(id, ErrKind.timeout)] ∧
    (st.queue = [] →
      getQueueStatus (timeoutFire st id) = (st.inFlight - 1, 0)) ∧
    (∃ n, (timeoutFire st id).posted.map Prod.snd
            = st.posted.map Prod.snd ++ st.queue.take n ∧
          (timeoutFire st id).queue = st.queue.drop n) := by
  constructor
  · simp [timeoutFire, processQueue_pending, List.mem_filter]
  constructor
  · simp [timeoutFire, processQueue_rejected]
  constructor
  · intro hq
    simp [timeoutFire, processQueue, hq, drainQueue, getQueueStatus]
  · obtain ⟨n, h1, h2⟩ := processQueue_fifo { st with
      pending := st.pending.filter (· ≠ id), inFlight := st.inFlight - 1 }
    exact ⟨n, by simpa [timeoutFire] using h1, by simpa [timeoutFire] using h2⟩

/-- Witness for C6: a fresh client with one request, empty queue; the timer
fires and the slot is reclaimed. -/
theorem request_timeout_semantics_witness :
    "req_1" ∈ (wcRequest (WCState.init 10) ⟨"SEARCH", "q"⟩).pending ∧
    ("req_1" ∉ (timeoutFire (wcRequest (WCState.init 10) ⟨"SEARCH", "q"⟩) "req_1").pending ∧
     (timeoutFire (wcRequest (WCState.init 10) ⟨"SEARCH", "q"⟩) "req_1").rejected
        = (wcRequest (WCState.init 10) ⟨"SEARCH", "q"⟩).rejected ++ [("req_1", ErrKind.timeout)] ∧
     ((wcRequest (WCState.init 10) ⟨"SEARCH", "q"⟩).queue = [] →
       getQueueStatus (timeoutFire (wcRequest (WCState.init 10) ⟨"SEARCH", "q"⟩) "req_1")
          = ((wcRequest (WCState.init 10) ⟨"SEARCH", "q"⟩).inFlight - 1, 0)) ∧
     (∃ n, (timeoutFire (wcRequest (WCState.init 10) ⟨"SEARCH", "q"⟩) "req_1").posted.map Prod.snd
             = (wcRequest (WCState.init 10) ⟨"SEARCH", "q"⟩).posted.map Prod.snd
                ++ (wcRequest (WCState.init 10) ⟨"SEARCH", "q"⟩).queue.take n ∧
           (timeoutFire (wcRequest (WCState.init 10) ⟨"SEARCH", "q"⟩) "req_1").queue
             = (wcRequest (WCState.init 10) ⟨"SEARCH", "q"⟩).queue.drop n)) :=
  ⟨by decide, request_timeout_semantics _ "req_1" (by decide)⟩

/-- With `overlap ≥ chunkSize` the window never advances: the loop guard
stays true forever. -/
theorem chunkChapterLoop_diverges (text : List Char) (chId chTitle : String)
    (chunkSize overlap : ℤ) (hso : chunkSize ≤ overlap)
    (hlen : 0 < text.length) :
    ∀ (fuel : Nat) (start : ℤ) (idx : Nat), start ≤ 0 →
      chunkChapterLoop text chId chTitle chunkSize overlap fuel start idx = none := by
  intro fuel
  induction fuel with
  | zero => intro start idx _; rfl
  | succ fuel ih =>
    intro start idx hstart
    rw [chunkChapterLoop, if_pos (by omega), ih _ (idx + 1) (by omega)]

/-- C4.  The chunker does NOT reject `overlap ≥ chunkSize`: there is no
error path for this configuration; instead the sliding loop never
terminates (every fuel bound is exhausted), both for a single chapter and
for `chunkBookContent` on a concrete book whose cleaned chapter text is 65
characters long. -/
theorem chunker_overlap_ge_chunkSize_diverges :
    (∀ (text : List Char) (chId chTitle : String) (chunkSize overlap : ℤ),
        chunkSize ≤ overlap → 0 < text.length → ∀ fuel : Nat,
        chunkChapterLoop text chId chTitle chunkSize overlap fuel 0 0 = none) ∧
    (∀ fuel : Nat, chunkBookContent fuel [sampleChapter] 800 800 = none) := by
  constructor
  · intro text chId chTitle chunkSize overlap hso hlen fuel
    exact chunkChapterLoop_diverges text chId chTitle chunkSize overlap hso hlen
      fuel 0 0 le_rfl
  · intro fuel
    have hclean : cleanChapterText sampleChapter.body = List.replicate 65 'a' := by
      decide
    rw [chunkBookContent]
    simp only [hclean]
    rw [if_neg (by simp)]
    rw [chunkChapterLoop_diverges _ _ _ _ _ le_rfl (by simp) fuel 0 0 le_rfl]

/-- Witness for C4: at fuel 5 the loop on a one-character text with
`chunkSize = overlap = 800` still has not finished. -/
theorem chunker_overlap_ge_chunkSize_diverges_witness :
    chunkChapterLoop ['a'] "c" "T" 800 800 5 0 0 = none :=
  chunker_overlap_ge_chunkSize_diverges.1 ['a'] "c" "T" 800 800 (by decide)
    (by decide) 5

/-- C5 counterexample.  With `chunkSize = 60`, `overlap = 50` on a
65-character chapter, the chunker emits 7 chunks of one chapter with
content lengths `[60, 55, 45, 35, 25, 15, 5]`.  Chunks 1 and 2 are
consecutive, chunk 2 is not the chapter's last chunk, yet they do not
overlap by 50 characters (chunk 2 only has 45). -/
theorem chunk_overlap_counterexample :
    ((chunkBookContent 20 [sampleChapter] 60 50).getD []).length = 7 ∧
    ((chunkBookContent 20 [sampleChapter] 60 50).getD []).map
        TextChunk.chapterId = List.replicate 7 "ch1" ∧
    ((chunkBookContent 20 [sampleChapter] 60 50).getD []).map
        (fun c => c.content.length) = [60, 55, 45, 35, 25, 15, 5] ∧
    ¬ ExactOverlap (((chunkBookContent 20 [sampleChapter] 60 50).getD []).getD 1 default)
        (((chunkBookContent 20 [sampleChapter] 60 50).getD []).getD 2 default) 50 := by
  refine ⟨by decide, by decide, by decide, ?_⟩
  intro h
  have := h.2.1
  revert this
  decide

/-- The emitted chunk content in normal form, for a non-negative window
start inside the text. -/
theorem chunk_content_eq (text : List Char) (size start : ℤ)
    (h0 : 0 ≤ start) (hlt : start < (text.length : ℤ)) (hs : 0 < size) :
    jsSlice text start (min (start + size) (text.length : ℤ))
      = (text.drop start.toNat).take
          ((min (start + size) (text.length : ℤ)).toNat - start.toNat) := by
  rw [jsSlice, jsSliceIdx, jsSliceIdx]
  rw [if_neg (by omega), if_neg (by omega : ¬ min (start + size) (text.length : ℤ) < 0)]
  · rw [List.drop_take]
    congr 1
    · omega
    · congr 1
      omega

theorem chunk_content_length (text : List Char) (size start : ℤ)
    (h0 : 0 ≤ start) (hlt : start < (text.length : ℤ)) (hs : 0 < size) :
    (jsSlice text start (min (start + size) (text.length : ℤ))).length
      = (min (start + size) (text.length : ℤ)).toNat - start.toNat := by
  rw [chunk_content_eq text size start h0 hlt hs]
  rw [List.length_take, List.length_drop]
  omega

/-- Every chunk the window loop emits has content length at most
`chunkSize`. -/
theorem chunkChapterLoop_length_le (text : List Char) (chId chTitle : String)
    (size ov : ℤ) (hs : 0 < size) :
    ∀ (fuel : Nat) (start : ℤ) (idx : Nat) (cs : List TextChunk), 0 ≤ start →
      chunkChapterLoop text chId chTitle size ov fuel start idx = some cs →
      ∀ c ∈ cs, c.content.length ≤ size.toNat := by
  intro fuel
  induction fuel with
  | zero => intro start idx cs _ h; exact absurd h (by simp [chunkChapterLoop])
  | succ fuel ih =>
    intro start idx cs hstart h
    rw [chunkChapterLoop] at h
    by_cases hg : start < (text.length : ℤ)
    · rw [if_pos hg] at h
      cases hrec : chunkChapterLoop text chId chTitle size ov fuel
          (start + (size - ov)) (idx + 1) with
      | none => rw [hrec] at h; exact absurd h (by simp)
      | some rest =>
        rw [hrec] at h
        obtain rfl : _ :: rest = cs := by simpa using h
        intro c hc
        rcases List.mem_cons.mp hc with rfl | hc
        · simp only []
          rw [chunk_content_length text size start hstart hg hs]
          omega
        · by_cases hstart' : 0 ≤ start + (size - ov)
          · exact ih (start + (size - ov)) (idx + 1) rest hstart' hrec c hc
          · exfalso
            have : start + (size - ov) ≤ 0 := by omega
            rw [chunkChapterLoop_diverges text chId chTitle size ov (by omega)
              (by omega) fuel _ (idx + 1) this] at hrec
            exact Option.noConfusion hrec
    · rw [if_neg hg] at h
      obtain rfl : ([] : List TextChunk) = cs := by simpa using h
      intro c hc
      exact absurd hc (List.not_mem_nil c)

/-- Inversion: when the window loop returns a non-empty list, its head is
the chunk cut at the current `start`. -/
theorem chunkChapterLoop_head (text : List Char) (chId chTitle : String)
    (size ov : ℤ) (fuel : Nat) (start : ℤ) (idx : Nat) (b : TextChunk)
    (rest : List TextChunk)
    (h : chunkChapterLoop text chId chTitle size ov fuel start idx
          = some (b :: rest)) :
    start < (text.length : ℤ) ∧
    b.content = jsSlice text start (min (start + size) (text.length : ℤ)) := by
  cases fuel with
  | zero => exact absurd h (by simp [chunkChapterLoop])
  | succ fuel =>
    rw [chunkChapterLoop] at h
    by_cases hg : start < (text.length : ℤ)
    · rw [if_pos hg] at h
      cases hrec : chunkChapterLoop text chId chTitle size ov fuel
          (start + (size - ov)) (idx + 1) with
      | none => rw [hrec] at h; exact absurd h (by simp)
      | some rest' =>
        rw [hrec] at h
        have := Option.some.inj h
        exact ⟨hg, by rw [← (List.cons.inj this).1]⟩
    · rw [if_neg hg] at h
      exact absurd (Option.some.inj h) (by simp)

/-- Consecutive chunks of one chapter overlap by exactly `ov` characters
whenever the earlier chunk still has full length `chunkSize`. -/
theorem chunkChapterLoop_chain (text : List Char) (chId chTitle : String)
    (size ov : ℤ) (h0 : 0 ≤ ov) (h1 : ov < size) :
    ∀ (fuel : Nat) (start : ℤ) (idx : Nat) (cs : List TextChunk), 0 ≤ start →
      chunkChapterLoop text chId chTitle size ov fuel start idx = some cs →
      List.Chain' (fun a b => a.content.length = size.toNat →
        ExactOverlap a b ov.toNat) cs := by
  intro fuel
  induction fuel with
  | zero => intro start idx cs _ h; exact absurd h (by simp [chunkChapterLoop])
  | succ fuel ih =>
    intro start idx cs hstart h
    rw [chunkChapterLoop] at h
    by_cases hg : start < (text.length : ℤ)
    · rw [if_pos hg] at h
      cases hrec : chunkChapterLoop text chId chTitle size ov fuel
          (start + (size - ov)) (idx + 1) with
      | none => rw [hrec] at h; exact absurd h (by simp)
      | some rest =>
        rw [hrec] at h
        obtain rfl : _ :: rest = cs := by simpa using h
        have hstart' : 0 ≤ start + (size - ov) := by omega
        have hchain : List.Chain' _ rest :=
          ih (start + (size - ov)) (idx + 1) rest hstart' hrec
        cases rest with
        | nil => exact List.chain'_singleton _
        | cons b rest2 =>
          refine List.Chain'.cons ?_ hchain
          intro hfull
          obtain ⟨hg', hb⟩ := chunkChapterLoop_head text chId chTitle size ov
            fuel (start + (size - ov)) (idx + 1) b rest2 hrec
          simp only [] at hfull
          rw [chunk_content_length text size start hstart hg (by omega)] at hfull
          -- the earlier chunk is full, so the window fits in the text
          have hfit : start + size ≤ (text.length : ℤ) := by omega
          have harg : (min (start + size) (text.length : ℤ)).toNat - start.toNat
              = size.toNat := by omega
          have hc0 : jsSlice text start (min (start + size) (text.length : ℤ))
              = (text.drop start.toNat).take size.toNat := by
            rw [chunk_content_eq text size start hstart hg (by omega), harg]
          have hbc : b.content = (text.drop (start + (size - ov)).toNat).take
              ((min (start + (size - ov) + size) (text.length : ℤ)).toNat
                - (start + (size - ov)).toNat) := by
            rw [hb, chunk_content_eq text size (start + (size - ov)) hstart' hg'
              (by omega)]
          constructor
          · -- ov ≤ length of the earlier chunk
            simp only []
            rw [chunk_content_length text size start hstart hg (by omega)]
            omega
          constructor
          · -- ov ≤ length of the later chunk
            rw [hbc, List.length_take, List.length_drop]
            omega
          · -- suffix of the earlier chunk = prefix of the later chunk
            simp only []
            rw [chunk_content_length text size start hstart hg (by omega), hc0, hbc]
            rw [List.drop_take, List.drop_drop, List.take_take]
            rw [List.take_drop, List.take_drop]
            congr 1
            · omega
            · congr 1
              omega
    · rw [if_neg hg] at h
      obtain rfl : ([] : List TextChunk) = cs := by simpa using h
      exact List.chain'_nil

/-- The `chunkBookContent` output, cut back into per-chapter segments: a
chapter whose cleaned text is shorter than 50 characters contributes the
empty segment, every other chapter contributes its window-loop output. -/
theorem chunkBookContent_segments (fuel : Nat) (chunkSize overlap : ℤ) :
    ∀ (chapters : List BookSection) (cs : List TextChunk),
      chunkBookContent fuel chapters chunkSize overlap = some cs →
      ∃ segs : List (List TextChunk), cs = segs.flatten ∧
        List.Forall₂ (fun (ch : BookSection) (seg : List TextChunk) =>
          if (cleanChapterText ch.body).length < 50 then seg = []
          else chunkChapterLoop (cleanChapterText ch.body) ch.id ch.title
                 chunkSize overlap fuel 0 0 = some seg) chapters segs := by
  intro chapters
  induction chapters with
  | nil =>
    intro cs h
    obtain rfl : ([] : List TextChunk) = cs := by
      simpa [chunkBookContent] using h
    exact ⟨[], by simp, List.Forall₂.nil⟩
  | cons ch rest ih =>
    intro cs h
    rw [chunkBookContent] at h
    by_cases hshort : (cleanChapterText ch.body).length < 50
    · rw [if_pos hshort] at h
      obtain ⟨segs, rfl, hall⟩ := ih cs h
      exact ⟨[] :: segs, by simp, List.Forall₂.cons (by simp [hshort]) hall⟩
    · rw [if_neg hshort] at h
      cases hloop : chunkChapterLoop (cleanChapterText ch.body) ch.id ch.title
          chunkSize overlap fuel 0 0 with
      | none => rw [hloop] at h; exact absurd h (by simp)
      | some cs1 =>
        rw [hloop] at h
        cases hrest : chunkBookContent fuel rest chunkSize overlap with
        | none => rw [hrest] at h; exact absurd h (by simp)
        | some css =>
          rw [hrest] at h
          obtain rfl : cs1 ++ css = cs := by simpa using h
          obtain ⟨segs, rfl, hall⟩ := ih css hrest
          exact ⟨cs1 :: segs, by simp,
            List.Forall₂.cons (by simp [hshort, hloop]) hall⟩

/-- C5 (amended).  For `0 ≤ overlap < chunkSize`: (1) every chunk the
chunker produces has content length ≤ `chunkSize`; (2) a pair of
consecutive chunks of one chapter overlaps by exactly `overlap` characters
whenever the earlier chunk has full length `chunkSize` (pairs in the
truncated tail of a chapter — not only the pair ending at its last chunk —
may overlap by less); (3) the output is the concatenation of per-chapter
segments, and a chapter whose cleaned plain text is shorter than 50
characters contributes the empty segment. -/
theorem chunker_window_properties (chunkSize overlap : ℤ)
    (h0 : 0 ≤ overlap) (h1 : overlap < chunkSize) :
    (∀ (fuel : Nat) (chapters : List BookSection) (cs : List TextChunk),
        chunkBookContent fuel chapters chunkSize overlap = some cs →
        ∀ c ∈ cs, c.content.length ≤ chunkSize.toNat) ∧
    (∀ (fuel : Nat) (text : List Char) (chId chTitle : String) (start : ℤ)
        (idx : Nat) (cs : List TextChunk), 0 ≤ start →
        chunkChapterLoop text chId chTitle chunkSize overlap fuel start idx
          = some cs →
        List.Chain' (fun a b => a.content.length = chunkSize.toNat →
          ExactOverlap a b overlap.toNat) cs) ∧
    (∀ (fuel : Nat) (chapters : List BookSection) (cs : List TextChunk),
        chunkBookContent fuel chapters chunkSize overlap = some cs →
        ∃ segs : List (List TextChunk), cs = segs.flatten ∧
          List.Forall₂ (fun ch seg =>
            if (cleanChapterText ch.body).length < 50 then seg = []
            else chunkChapterLoop (cleanChapterText ch.body) ch.id ch.title
                   chunkSize overlap fuel 0 0 = some seg) chapters segs) := by
  refine ⟨?_, ?_, ?_⟩
  · intro fuel chapters cs h c hc
    obtain ⟨segs, rfl, hall⟩ := chunkBookContent_segments fuel chunkSize overlap
      chapters cs h
    obtain ⟨seg, hseg, hcseg⟩ := List.mem_flatten.mp hc
    clear h hc
    induction hall with
    | nil => exact absurd hseg (List.not_mem_nil seg)
    | @cons ch' seg' l₁ l₂ hr hall ih =>
      rcases List.mem_cons.mp hseg with rfl | hseg'
      · by_cases hshort : (cleanChapterText ch'.body).length < 50
        · rw [if_pos hshort] at hr
          exact absurd (hr ▸ hcseg) (List.not_mem_nil c)
        · rw [if_neg hshort] at hr
          exact chunkChapterLoop_length_le _ _ _ _ _ (by omega) fuel 0 0 seg
            le_rfl hr c hcseg
      · exact ih hseg'
  · intro fuel text chId chTitle start idx cs hstart h
    exact chunkChapterLoop_chain text chId chTitle chunkSize overlap h0 h1
      fuel start idx cs hstart h
  · exact fun fuel => chunkBookContent_segments fuel chunkSize overlap

/-- C2.  Dimension-mismatch inserts are atomic: once a dimension is latched
(`dimension ≠ 0`), an `INDEX_CHUNK` whose embedding length differs replies
with an error message — the mismatch is reported, not silently dropped —
and leaves the state (vectors buffer, id list, count, dimension) exactly
unchanged. -/
theorem index_chunk_mismatch_atomic (st : RagState) (msgId chunkId : String)
    (embedding : List ℚ) (hdim : st.dimension ≠ 0)
    (hmis : embedding.length ≠ st.dimension) :
    (handleIndexChunk st msgId chunkId embedding).1 = st ∧
    (handleIndexChunk st msgId chunkId embedding).2
      = some (OutMsg.error msgId ("Dimension mismatch: expected "
          ++ toString st.dimension ++ ", got " ++ toString embedding.length)) := by
  rw [handleIndexChunk]
  simp only [if_neg hdim]
  rw [if_pos hmis]
  exact ⟨rfl, rfl⟩

/-- Witness for C2: insert `[1, 0]` (latching dimension 2) into a fresh
index, then try a 3-component vector. -/
theorem index_chunk_mismatch_atomic_witness :
    ((handleIndexChunk RagState.init "m1" "c1" [1, 0]).1.dimension ≠ 0 ∧
     ([1, 2, 3] : List ℚ).length ≠ (handleIndexChunk RagState.init "m1" "c1" [1, 0]).1.dimension) ∧
    ((handleIndexChunk (handleIndexChunk RagState.init "m1" "c1" [1, 0]).1 "m2" "c2" [1, 2, 3]).1
        = (handleIndexChunk RagState.init "m1" "c1" [1, 0]).1 ∧
     (handleIndexChunk (handleIndexChunk RagState.init "m1" "c1" [1, 0]).1 "m2" "c2" [1, 2, 3]).2
        = some (OutMsg.error "m2" ("Dimension mismatch: expected "
            ++ toString (handleIndexChunk RagState.init "m1" "c1" [1, 0]).1.dimension
            ++ ", got " ++ toString ([1, 2, 3] : List ℚ).length))) := by
  have hd : (handleIndexChunk RagState.init "m1" "c1" [1, 0]).1.dimension = 2 := rfl
  refine ⟨⟨by rw [hd]; decide, by rw [hd]; decide⟩, ?_⟩
  exact index_chunk_mismatch_atomic _ "m2" "c2" [1, 2, 3]
    (by rw [hd]; decide) (by rw [hd]; decide)

theorem lexInsert_map_snd (p : Nat × String × ℚ)
    (l : List (Nat × String × ℚ)) :
    (lexInsert p l).map Prod.snd = sortInsert p.2 (l.map Prod.snd) := by
  induction l with
  | nil => rfl
  | cons y ys ih =>
    rw [lexInsert, List.map_cons, sortInsert]
    by_cases hg : y.2.2 ≤ p.2.2
    · rw [if_pos hg, if_pos hg]
      rfl
    · rw [if_neg hg, if_neg hg, List.map_cons, ih]

theorem lexInsert_perm (p : Nat × String × ℚ) (l : List (Nat × String × ℚ)) :
    (lexInsert p l).Perm (p :: l) := by
  induction l with
  | nil => exact List.Perm.refl _
  | cons y ys ih =>
    rw [lexInsert]
    by_cases hg : y.2.2 ≤ p.2.2
    · rw [if_pos hg]
    · rw [if_neg hg]
      exact (ih.cons y).trans (List.Perm.swap p y ys)

theorem lexInsert_mem {z p : Nat × String × ℚ} {l : List (Nat × String × ℚ)} :
    z ∈ lexInsert p l ↔ z = p ∨ z ∈ l := by
  rw [(lexInsert_perm p l).mem_iff]
  simp

theorem lexInsert_pairwise (p : Nat × String × ℚ)
    (l : List (Nat × String × ℚ)) (hl : l.Pairwise lexAfter)
    (hidx : ∀ y ∈ l, p.1 < y.1) :
    (lexInsert p l).Pairwise lexAfter := by
  induction l with
  | nil => simpa [lexInsert] using List.pairwise_singleton lexAfter p
  | cons y ys ih =>
    rw [List.pairwise_cons] at hl
    rw [lexInsert]
    by_cases hg : y.2.2 ≤ p.2.2
    · rw [if_pos hg, List.pairwise_cons]
      refine ⟨?_, List.pairwise_cons.mpr hl⟩
      intro z hz
      rcases List.mem_cons.mp hz with rfl | hz'
      · rcases lt_or_eq_of_le hg with h | h
        · exact Or.inl h
        · exact Or.inr ⟨h.symm, hidx z (List.mem_cons_self z ys)⟩
      · rcases hl.1 z hz' with h | h
        · exact Or.inl (lt_of_lt_of_le h hg)
        · rcases lt_or_eq_of_le (h.1 ▸ hg) with h2 | h2
          · exact Or.inl h2
          · exact Or.inr ⟨h2.symm, hidx z (List.mem_cons_of_mem y hz')⟩
    · rw [if_neg hg, List.pairwise_cons]
      refine ⟨?_, ih hl.2 (fun w hw => hidx w (List.mem_cons_of_mem y hw))⟩
      intro z hz
      rcases lexInsert_mem.mp hz with rfl | hz'
      · exact Or.inl (lt_of_not_le hg)
      · exact hl.1 z hz'

/-- The stable descending sort is, uniquely, a permutation of the
index-tagged input that is pairwise ordered by score (descending) with
ties in original index order. -/
theorem stableSortDesc_spec (s : List (String × ℚ)) : ∀ k : Nat,
    ∃ t : List (Nat × String × ℚ),
      t.Perm (List.enumFrom k s) ∧ t.Pairwise lexAfter ∧
      stableSortDesc s = t.map Prod.snd ∧ (∀ p ∈ t, k ≤ p.1) := by
  induction s with
  | nil =>
    intro k
    exact ⟨[], by simp [List.enumFrom], by simp, rfl, by simp⟩
  | cons x xs ih =>
    intro k
    obtain ⟨t, hperm, hpair, hmap, hbound⟩ := ih (k + 1)
    refine ⟨lexInsert (k, x) t, ?_, ?_, ?_, ?_⟩
    · exact (lexInsert_perm _ _).trans (hperm.cons _)
    · exact lexInsert_pairwise _ _ hpair
        (fun y hy => Nat.lt_of_succ_le (hbound y hy))
    · rw [stableSortDesc, hmap]
      exact (lexInsert_map_snd (k, x) t).symm
    · intro p hp
      rcases lexInsert_mem.mp hp with rfl | h
      · exact le_refl k
      · exact le_trans (Nat.le_succ k) (hbound p h)

theorem loopSum_eq_sum_range (f : Nat → ℚ) (n : Nat) :
    loopSum f n = ((List.range n).map f).sum := by
  induction n with
  | zero => rfl
  | succ n ih => rw [loopSum, List.range_succ, List.map_append, List.sum_append, ih]; simp

theorem dotProd_eq_sum_range (n : Nat) : ∀ (q v : List ℚ),
    q.length = n → v.length = n →
    dotProd q v = ((List.range n).map (fun j => q.getD j 0 * v.getD j 0)).sum := by
  induction n with
  | zero =>
    intro q v hq hv
    rw [List.length_eq_zero] at hq hv
    subst hq; subst hv
    rfl
  | succ n ih =>
    intro q v hq hv
    cases q with
    | nil => exact absurd hq (by simp)
    | cons a q' =>
      cases v with
      | nil => exact absurd hv (by simp)
      | cons b v' =>
        have hq' : q'.length = n := by simpa using hq
        have hv' : v'.length = n := by simpa using hv
        rw [List.range_succ_eq_map, List.map_cons, List.sum_cons]
        simp only [List.getD_cons_zero, List.map_map]
        have : ((List.range n).map ((fun j => (a :: q').getD j 0 * (b :: v').getD j 0)
            ∘ Nat.succ)).sum
            = ((List.range n).map (fun j => q'.getD j 0 * v'.getD j 0)).sum := by
          apply congrArg
          apply List.map_congr_left
          intro j _
          simp [List.getD_cons_succ]
        rw [this, ← ih q' v' hq' hv']
        simp [dotProd]

theorem rowOf_length (dim : Nat) (buf : List ℚ) (i : Nat)
    (h : (i + 1) * dim ≤ buf.length) : (rowOf dim buf i).length = dim := by
  rw [rowOf, List.length_take, List.length_drop]
  have : i * dim + dim ≤ buf.length := by nlinarith
  omega

theorem rowOf_getD (dim : Nat) (buf : List ℚ) (i j : Nat) (hj : j < dim) :
    (rowOf dim buf i).getD j 0 = buf.getD (i * dim + j) 0 := by
  rw [rowOf, List.getD_eq_getElem?_getD, List.getD_eq_getElem?_getD]
  rw [List.getElem?_take, if_pos hj, List.getElem?_drop]

/-- The handler's flat-buffer score loop computes exactly the per-row
cosine scores. -/
theorem search_scores_eq (sqrtFn : ℚ → ℚ) (st : RagState) (buf : List ℚ)
    (q : List ℚ) (hq : q.length = st.dimension)
    (hbuf : st.count * st.dimension ≤ buf.length) :
    ((List.range st.count).map (fun i =>
        (st.ids.getD i "",
          loopSum (fun j => q.getD j 0 * buf.getD (i * st.dimension + j) 0)
              st.dimension
            / (sqrtFn (loopSum (fun j => q.getD j 0 * q.getD j 0) st.dimension)
                * sqrtFn (loopSum (fun j => buf.getD (i * st.dimension + j) 0
                    * buf.getD (i * st.dimension + j) 0) st.dimension)
                + 1 / 100000000))))
      = specScores sqrtFn st buf q := by
  rw [specScores]
  apply List.map_congr_left
  intro i hi
  have hi' : i < st.count := List.mem_range.mp hi
  have hrow : ((i + 1) * st.dimension) ≤ buf.length :=
    le_trans (Nat.mul_le_mul_right _ hi') hbuf
  have hrowlen : (rowOf st.dimension buf i).length = st.dimension :=
    rowOf_length _ _ _ hrow
  have hdot : loopSum (fun j => q.getD j 0 * buf.getD (i * st.dimension + j) 0)
      st.dimension = dotProd q (rowOf st.dimension buf i) := by
    rw [dotProd_eq_sum_range st.dimension q (rowOf st.dimension buf i) hq hrowlen,
      loopSum_eq_sum_range]
    apply congrArg
    apply List.map_congr_left
    intro j hj
    rw [rowOf_getD st.dimension buf i j (List.mem_range.mp hj)]
  have hna : loopSum (fun j => q.getD j 0 * q.getD j 0) st.dimension
      = normSq q := by
    rw [normSq, dotProd_eq_sum_range st.dimension q q hq hq, loopSum_eq_sum_range]
  have hnb : loopSum (fun j => buf.getD (i * st.dimension + j) 0
      * buf.getD (i * st.dimension + j) 0) st.dimension
      = normSq (rowOf st.dimension buf i) := by
    rw [normSq, dotProd_eq_sum_range st.dimension _ _ hrowlen hrowlen,
      loopSum_eq_sum_range]
    apply congrArg
    apply List.map_congr_left
    intro j hj
    rw [rowOf_getD st.dimension buf i j (List.mem_range.mp hj)]
  rw [hdot, hna, hnb, cosineScore]

/-- C3.  `SEARCH` postcondition: an index holding zero vectors answers the
empty result list (not an error); otherwise the reply is the first `topK`
of the unique stable descending arrangement of the `(id, score)` pairs —
score `dot(q,v) / (||q||·||v|| + 1e-8)` computed against every stored row —
i.e. of a permutation `t` of the index-tagged score list that is pairwise
sorted by descending score with ties in insertion order; a `topK ≥ count`
returns all `count` entries. -/
theorem search_postcondition (sqrtFn : ℚ → ℚ) (st : RagState) (msgId : String)
    (q : List ℚ) (topK : Nat) :
    (st.count = 0 ∨ st.vectors = none →
        handleSearch sqrtFn st msgId q topK = .searchResult msgId []) ∧
    (∀ buf : List ℚ, st.vectors = some buf → st.count ≠ 0 →
        q.length = st.dimension → st.count * st.dimension ≤ buf.length →
        ∃ t : List (Nat × String × ℚ),
          t.Perm (specScores sqrtFn st buf q).enum ∧
          t.Pairwise lexAfter ∧
          handleSearch sqrtFn st msgId q topK
            = .searchResult msgId ((t.map Prod.snd).take topK) ∧
          (st.count ≤ topK →
            handleSearch sqrtFn st msgId q topK
              = .searchResult msgId (t.map Prod.snd))) := by
  constructor
  · intro h
    cases hv : st.vectors with
    | none => rw [handleSearch, hv]
    | some buf =>
      rcases h with h | h
      · rw [handleSearch, hv]
        simp [h]
      · exact absurd (hv ▸ h) (by simp)
  · intro buf hv hc hq hbuf
    obtain ⟨t, hperm, hpair, hmap, _⟩ :=
      stableSortDesc_spec (specScores sqrtFn st buf q) 0
    refine ⟨t, hperm, hpair, ?_, ?_⟩
    · rw [handleSearch, hv]
      simp only [if_neg hc]
      rw [search_scores_eq sqrtFn st buf q hq hbuf, hmap]
    · intro htop
      rw [handleSearch, hv]
      simp only [if_neg hc]
      rw [search_scores_eq sqrtFn st buf q hq hbuf, hmap]
      have hlen : (t.map Prod.snd).length = st.count := by
        rw [List.length_map, hperm.length_eq]
        simp [specScores, List.enum]
      rw [List.take_of_length_le (le_trans (le_of_eq hlen) htop)]

/-- Witness for C3 at a two-row index of dimension 2 with `sqrtFn = id`. -/
theorem search_postcondition_witness :
    ((⟨some [1, 0, 0, 1], ["a", "b"], 2, 2⟩ : RagState).vectors
        = some [1, 0, 0, 1] ∧
     (⟨some [1, 0, 0, 1], ["a", "b"], 2, 2⟩ : RagState).count ≠ 0 ∧
     ([1, 0] : List ℚ).length
        = (⟨some [1, 0, 0, 1], ["a", "b"], 2, 2⟩ : RagState).dimension) ∧
    (∃ t : List (Nat × String × ℚ),
      t.Perm (specScores id (⟨some [1, 0, 0, 1], ["a", "b"], 2, 2⟩ : RagState)
          [1, 0, 0, 1] [1, 0]).enum ∧
      t.Pairwise lexAfter ∧
      handleSearch id (⟨some [1, 0, 0, 1], ["a", "b"], 2, 2⟩ : RagState)
          "m" [1, 0] 5
        = .searchResult "m" ((t.map Prod.snd).take 5) ∧
      ((⟨some [1, 0, 0, 1], ["a", "b"], 2, 2⟩ : RagState).count ≤ 5 →
        handleSearch id (⟨some [1, 0, 0, 1], ["a", "b"], 2, 2⟩ : RagState)
            "m" [1, 0] 5
          = .searchResult "m" (t.map Prod.snd))) :=
  ⟨⟨rfl, by decide, by decide⟩,
    (search_postcondition id ⟨some [1, 0, 0, 1], ["a", "b"], 2, 2⟩ "m" [1, 0] 5).2
      [1, 0, 0, 1] rfl (by decide) (by decide) (by decide)⟩

/-- Witness for C5 at the concrete parameters `chunkSize = 10`,
`overlap = 3`. -/
theorem chunker_window_properties_witness :
    (∀ (fuel : Nat) (chapters : List BookSection) (cs : List TextChunk),
        chunkBookContent fuel chapters 10 3 = some cs →
        ∀ c ∈ cs, c.content.length ≤ (10 : ℤ).toNat) ∧
    (∀ (fuel : Nat) (text : List Char) (chId chTitle : String) (start : ℤ)
        (idx : Nat) (cs : List TextChunk), 0 ≤ start →
        chunkChapterLoop text chId chTitle 10 3 fuel start idx = some cs →
        List.Chain' (fun a b => a.content.length = (10 : ℤ).toNat →
          ExactOverlap a b (3 : ℤ).toNat) cs) ∧
    (∀ (fuel : Nat) (chapters : List BookSection) (cs : List TextChunk),
        chunkBookContent fuel chapters 10 3 = some cs →
        ∃ segs : List (List TextChunk), cs = segs.flatten ∧
          List.Forall₂ (fun ch seg =>
            if (cleanChapterText ch.body).length < 50 then seg = []
            else chunkChapterLoop (cleanChapterText ch.body) ch.id ch.title
                   10 3 fuel 0 0 = some seg) chapters segs) :=
  chunker_window_properties 10 3 (by decide) (by decide)

theorem addAttempt_fetchCount (d : Option ℚ) (r : RetryRes) :
    (addAttempt d r).fetchCount = r.fetchCount + 1 := by
  cases r <;> rfl

theorem retryGo_fetchCount_le (oc : Nat → FetchOutcome) (jit : Nat → ℚ) :
    ∀ (n i : Nat), (retryGo oc jit i n).fetchCount ≤ n := by
  intro n
  induction n with
  | zero => intro i; exact le_refl 0
  | succ n ih =>
    intro i
    rw [retryGo]
    cases oc i with
    | resp s =>
      dsimp only
      by_cases hok : statusOk s
      · rw [if_pos hok]; exact Nat.le_add_left 1 n
      · rw [if_neg hok]
        by_cases hr : 500 ≤ s ∨ s = 429
        · rw [if_pos hr, addAttempt_fetchCount]
          exact Nat.succ_le_succ (ih (i + 1))
        · rw [if_neg hr]; exact Nat.le_add_left 1 n
    | netError =>
      dsimp only
      rw [addAttempt_fetchCount]
      exact Nat.succ_le_succ (ih (i + 1))

theorem addAttempt_statusQ (d : Option ℚ) (r : RetryRes) :
    (addAttempt d r).statusQ = r.statusQ := by
  cases r <;> rfl

theorem addAttempt_delays (d : ℚ) (r : RetryRes) :
    (addAttempt (some d) r).delays = d :: r.delays := by
  cases r <;> rfl

theorem retryRes_eq_of_statusQ {r : RetryRes} {s : Nat}
    (h : r.statusQ = some s) : r = .returned s r.fetchCount r.delays := by
  cases r with
  | returned s' n ds =>
    obtain rfl : s' = s := by simpa [RetryRes.statusQ] using h
    rfl
  | threw n ds => exact absurd h (by simp [RetryRes.statusQ])

/-- One step past a retryable attempt. -/
theorem retryGo_step (oc : Nat → FetchOutcome) (jit : Nat → ℚ) (b n : Nat)
    (h : retryable (oc b)) :
    retryGo oc jit b (n + 1)
      = addAttempt (some (2 ^ b * 1000 + jit b)) (retryGo oc jit (b + 1) n) := by
  rw [retryGo]
  cases hoc : oc b with
  | resp s =>
    dsimp only
    rw [hoc] at h
    have hr : 500 ≤ s ∨ s = 429 := h
    have hnok : ¬ statusOk s := by
      rcases hr with h' | h' <;> · rw [statusOk]; omega
    rw [if_neg hnok, if_pos hr]
  | netError => rfl

/-- Running past `i` retryable attempts: the final status is decided by
the remaining attempts, `i` extra fetches happen, and the slept delays are
exactly `2^j * 1000 + jitter j` for `j = b, …, b+i-1`, in order, followed
by whatever the rest sleeps. -/
theorem retryGo_pastRetryable (oc : Nat → FetchOutcome) (jit : Nat → ℚ) :
    ∀ (i b n : Nat), i ≤ n → (∀ j, j < i → retryable (oc (b + j))) →
      (retryGo oc jit b n).statusQ = (retryGo oc jit (b + i) (n - i)).statusQ ∧
      (retryGo oc jit b n).fetchCount
        = i + (retryGo oc jit (b + i) (n - i)).fetchCount ∧
      (retryGo oc jit b n).delays
        = ((List.range i).map fun j => 2 ^ (b + j) * 1000 + jit (b + j))
            ++ (retryGo oc jit (b + i) (n - i)).delays := by
  intro i
  induction i with
  | zero => intro b n _ _; simp
  | succ i ih =>
    intro b n hin hpre
    cases n with
    | zero => exact absurd hin (by omega)
    | succ n =>
      have h0 : retryable (oc b) := by simpa using hpre 0 (Nat.succ_pos i)
      rw [retryGo_step oc jit b n h0]
      obtain ⟨hs, hc, hd⟩ := ih (b + 1) n (by omega) (fun j hj => by
        have := hpre (j + 1) (by omega)
        have harith : b + (j + 1) = b + 1 + j := by omega
        rwa [harith] at this)
      have harith2 : b + 1 + i = b + (i + 1) := by omega
      rw [harith2] at hs hc hd
      have harith3 : n - i = n + 1 - (i + 1) := by omega
      rw [harith3] at hs hc hd
      have hmapshift : ((List.range i).map fun j => 2 ^ (b + 1 + j) * 1000 + jit (b + 1 + j))
          = (List.range i).map ((fun j => 2 ^ (b + j) * 1000 + jit (b + j)) ∘ Nat.succ) := by
        apply List.map_congr_left
        intro j _
        show 2 ^ (b + 1 + j) * 1000 + jit (b + 1 + j)
          = 2 ^ (b + (j + 1)) * 1000 + jit (b + (j + 1))
        have e : b + 1 + j = b + (j + 1) := by omega
        rw [e]
      refine ⟨by rw [addAttempt_statusQ, hs], ?_, ?_⟩
      · rw [addAttempt_fetchCount, hc]
        omega
      · rw [addAttempt_delays, hd, hmapshift, List.range_succ_eq_map,
          List.map_cons, List.map_map, List.cons_append]
        simp

/-- At least one fetch happens whenever there is fuel. -/
theorem retryGo_fetchCount_pos (oc : Nat → FetchOutcome) (jit : Nat → ℚ)
    (b n : Nat) : 1 ≤ (retryGo oc jit b (n + 1)).fetchCount := by
  rw [retryGo]
  cases oc b with
  | resp s =>
    dsimp only
    by_cases hok : statusOk s
    · rw [if_pos hok]; exact le_refl 1
    · rw [if_neg hok]
      by_cases hr : 500 ≤ s ∨ s = 429
      · rw [if_pos hr, addAttempt_fetchCount]; omega
      · rw [if_neg hr]; exact le_refl 1
  | netError => dsimp only; rw [addAttempt_fetchCount]; omega

/-- C8.  Provider-call retry policy of `fetchWithRetry` with the default
`maxRetries = 3`: (1) at most 3 fetches are ever made; (2) when attempt
`i` (counting from 0, after only retryable attempts) yields a 5xx or 429
response and the retry budget is not exhausted, the call is retried — a
further fetch happens — after sleeping `2^i * 1000 + jitter` milliseconds;
(3) when attempt `i` yields any other non-2xx 4xx response, that response
is returned immediately: exactly `i + 1` fetches, no new delay. -/
theorem fetch_retry_policy :
    (∀ (oc : Nat → FetchOutcome) (jit : Nat → ℚ),
        (fetchWithRetry oc jit 3).fetchCount ≤ 3) ∧
    (∀ (oc : Nat → FetchOutcome) (jit : Nat → ℚ) (i s : Nat),
        (∀ j, j < i → retryable (oc j)) → oc i = .resp s →
        (500 ≤ s ∨ s = 429) → i + 1 < 3 →
        (fetchWithRetry oc jit 3).delays.get? i = some (2 ^ i * 1000 + jit i) ∧
        i + 2 ≤ (fetchWithRetry oc jit 3).fetchCount) ∧
    (∀ (oc : Nat → FetchOutcome) (jit : Nat → ℚ) (i s : Nat),
        (∀ j, j < i → retryable (oc j)) → oc i = .resp s →
        400 ≤ s → s < 500 → s ≠ 429 → i < 3 →
        fetchWithRetry oc jit 3
          = .returned s (i + 1) ((List.range i).map fun j => 2 ^ j * 1000 + jit j)) := by
  refine ⟨?_, ?_, ?_⟩
  · intro oc jit
    exact retryGo_fetchCount_le oc jit 3 0
  · intro oc jit i s hpre hoc hretry hbudget
    obtain ⟨hs, hc, hd⟩ := retryGo_pastRetryable oc jit i 0 3 (by omega)
      (fun j hj => by simpa using hpre j hj)
    have hstep : retryGo oc jit (0 + i) (3 - i)
        = addAttempt (some (2 ^ i * 1000 + jit i)) (retryGo oc jit (i + 1) (3 - i - 1)) := by
      have h3i : 3 - i = (3 - i - 1) + 1 := by omega
      rw [h3i]
      have : (0 : Nat) + i = i := by omega
      rw [this]
      exact retryGo_step oc jit i (3 - i - 1) (by rw [hoc]; exact hretry)
    constructor
    · rw [fetchWithRetry, hd, hstep, addAttempt_delays]
      rw [List.get?_append_right (by simp)]
      simp
    · rw [fetchWithRetry, hc, hstep, addAttempt_fetchCount]
      have h3i : 3 - i - 1 = (3 - i - 2) + 1 := by omega
      rw [h3i]
      have := retryGo_fetchCount_pos oc jit (i + 1) (3 - i - 2)
      omega
  · intro oc jit i s hpre hoc h400 h500 h429 hbudget
    obtain ⟨hs, hc, hd⟩ := retryGo_pastRetryable oc jit i 0 3 (by omega)
      (fun j hj => by simpa using hpre j hj)
    have h3i : 3 - i = (3 - i - 1) + 1 := by omega
    have hzi : (0 : Nat) + i = i := by omega
    have hres : retryGo oc jit (0 + i) (3 - i) = .returned s 1 [] := by
      rw [hzi, h3i, retryGo, hoc]
      dsimp only
      rw [if_neg (by rw [statusOk]; omega), if_neg (by omega)]
    rw [hres] at hs hc hd
    have heq := retryRes_eq_of_statusQ (s := s) (r := fetchWithRetry oc jit 3)
      (by rw [fetchWithRetry, hs]; rfl)
    rw [heq, fetchWithRetry]
    rw [hc, hd]
    simp [RetryRes.fetchCount, RetryRes.delays, Nat.add_comm]

/-- Witness for C8: attempt 0 is a 500 (retried with delay 1000 + jitter),
attempt 1 is a 404 (returned immediately after 2 fetches). -/
theorem fetch_retry_policy_witness :
    ((∀ j, j < 1 → retryable ((fun i => if i = 0 then FetchOutcome.resp 500
          else FetchOutcome.resp 404) j)) ∧
      (fun i => if i = 0 then FetchOutcome.resp 500 else FetchOutcome.resp 404) 1
        = FetchOutcome.resp 404) ∧
    fetchWithRetry (fun i => if i = 0 then FetchOutcome.resp 500
        else FetchOutcome.resp 404) (fun _ => 7) 3
      = .returned 404 2 ((List.range 1).map fun j => 2 ^ j * 1000 + (fun _ : Nat => (7 : ℚ)) j) := by
  refine ⟨⟨?_, rfl⟩, ?_⟩
  · intro j hj
    obtain rfl : j = 0 := by omega
    decide
  · exact fetch_retry_policy.2.2 _ _ 1 404
      (fun j hj => by
        obtain rfl : j = 0 := by omega
        decide)
      rfl (by omega) (by omega) (by omega) (by omega)

/-- C7.  Cache staleness rule: with no metadata record `validateIndex` is
valid; with a record whose (truthy) stored model differs from the (truthy)
configured model it is invalid, and the pipeline's very first effect —
before the cache load and before any embedding call — is clearing the
persisted vectors of that book. -/
theorem cache_staleness_rule :
    (∀ configModel : Option String, validateIndex none configModel = (true, none)) ∧
    (∀ (m : EmbMeta) (cm mm : String), cm ≠ "" → mm ≠ "" → mm ≠ cm →
        m.model = some mm →
        validateIndex (some m) (some cm)
          = (false, some ("Model mismatch: index=" ++ mm ++ ", config=" ++ cm))) ∧
    (∀ (bookId : String) (meta : Option EmbMeta) (configModel : Option String)
        (cached : List String) (chunks : List TextChunk),
        (validateIndex meta configModel).1 = false →
        ∃ rest, indexChunksTrace bookId meta configModel cached chunks
          = PipelineEffect.clearEmbeddings bookId :: rest) := by
  refine ⟨fun _ => rfl, ?_, ?_⟩
  · intro m cm mm hcm hmm hne hmod
    obtain ⟨mo, md⟩ := m
    obtain rfl : mo = some mm := hmod
    simp only [validateIndex]
    rw [if_pos ⟨hcm, hmm, hne⟩]
  · intro bookId meta configModel cached chunks hinv
    rw [indexChunksTrace]
    simp only [hinv]
    exact ⟨_, rfl⟩

/-- Witness for C7: stored model "A", configured model "B". -/
theorem cache_staleness_rule_witness :
    validateIndex (some ⟨some "A", some 384⟩) (some "B")
        = (false, some ("Model mismatch: index=" ++ "A" ++ ", config=" ++ "B")) ∧
    (∃ rest, indexChunksTrace "book1" (some ⟨some "A", some 384⟩) (some "B") [] []
        = PipelineEffect.clearEmbeddings "book1" :: rest) :=
  ⟨cache_staleness_rule.2.1 ⟨some "A", some 384⟩ "B" "A" (by decide) (by decide)
      (by decide) rfl,
   cache_staleness_rule.2.2 "book1" (some ⟨some "A", some 384⟩) (some "B") [] []
      (by decide)⟩

theorem toInt8_of_unit_interval (x : ℚ) (h1 : -1 < x) (h2 : x < 1) :
    toInt8 x = 0 := by
  have htr : truncRat x = 0 := by
    rw [truncRat]
    by_cases hx : 0 ≤ x
    · rw [if_pos hx, Int.floor_eq_zero_iff.mpr (by constructor <;> simpa)]
    · rw [if_neg hx]
      have : ⌊-x⌋ = 0 := by
        apply Int.floor_eq_zero_iff.mpr
        constructor
        · show (0 : ℚ) ≤ -x
          linarith
        · show -x < 1
          linarith
      rw [this]
      rfl
  rw [toInt8, htr]
  rfl

/-- C10.  The 8-bit persistence path is integer truncation, not scaled
quantization: a vector whose components all lie strictly inside `(-1, 1)`
is stored as the all-zero Int8 vector of the same length, and
`getBookEmbeddings` re-hydrates it as the all-zero number array of that
length — dimensionality survives, the component values do not. -/
theorem int8_truncation_roundtrip (store : List EmbRecord)
    (bookId chunkId : String) (emb : List ℚ) (model : Option String)
    (h : ∀ x ∈ emb, -1 < x ∧ x < 1) :
    (∃ r ∈ saveEmbeddingsBatch store bookId [(chunkId, emb)] model,
        r.bookId = bookId ∧ r.chunkId = chunkId ∧
        r.embedding = List.replicate emb.length 0) ∧
    (chunkId, List.replicate emb.length (0 : ℚ)) ∈
        getBookEmbeddings (saveEmbeddingsBatch store bookId [(chunkId, emb)] model)
          bookId ∧
    (∀ p ∈ getBookEmbeddings (saveEmbeddingsBatch store bookId [(chunkId, emb)] model)
          bookId,
        p.1 = chunkId → p.2 = List.replicate emb.length (0 : ℚ)) := by
  have hmap : emb.map toInt8 = List.replicate emb.length 0 := by
    apply List.eq_replicate.mpr
    constructor
    · simp
    · intro b hb
      obtain ⟨x, hx, rfl⟩ := List.mem_map.mp hb
      exact toInt8_of_unit_interval x (h x hx).1 (h x hx).2
  have hsave : saveEmbeddingsBatch store bookId [(chunkId, emb)] model
      = putRecord store
          { bookId := bookId, chunkId := chunkId, embedding := emb.map toInt8,
            model := model, dimensions := (emb.map toInt8).length } := rfl
  have hex : ∃ r ∈ saveEmbeddingsBatch store bookId [(chunkId, emb)] model,
      r.bookId = bookId ∧ r.chunkId = chunkId ∧
      r.embedding = List.replicate emb.length 0 := by
    rw [hsave, putRecord]
    exact ⟨_, List.mem_append_right _ (List.mem_singleton_self _), rfl, rfl, hmap⟩
  refine ⟨hex, ?_, ?_⟩
  · obtain ⟨r, hrmem, hrb, hrc, hre⟩ := hex
    have hfil : r ∈ (saveEmbeddingsBatch store bookId [(chunkId, emb)] model).filter
        (fun x => x.bookId = bookId) :=
      List.mem_filter.mpr ⟨hrmem, by simp [hrb]⟩
    have hmm := List.mem_map_of_mem
      (fun r : EmbRecord => (r.chunkId, r.embedding.map (fun z : ℤ => (z : ℚ)))) hfil
    simp only [hrc, hre, List.map_replicate] at hmm
    have h0 : ((0 : ℤ) : ℚ) = 0 := by norm_num
    rw [h0] at hmm
    exact hmm
  · intro p hp hpid
    rw [hsave, putRecord, getBookEmbeddings] at hp
    obtain ⟨x, hx, rfl⟩ := List.mem_map.mp hp
    obtain ⟨hxmem, hxbook⟩ := List.mem_filter.mp hx
    rcases List.mem_append.mp hxmem with hleft | hright
    · exfalso
      obtain ⟨_, hcond⟩ := List.mem_filter.mp hleft
      have hxb : x.bookId = bookId := by simpa using hxbook
      have hnc : ¬ (x.bookId = bookId ∧ x.chunkId = chunkId) :=
        of_decide_eq_true hcond
      exact hnc ⟨hxb, hpid⟩
    · obtain rfl : x = _ := List.mem_singleton.mp hright
      show ((List.map toInt8 emb).map fun z : ℤ => (z : ℚ)) = List.replicate emb.length 0
      rw [hmap, List.map_replicate]
      simp

/-- Witness for C10: the vector `[1/2, -9/10, 0]` with all components in
`(-1, 1)` round-trips as `[0, 0, 0]`. -/
theorem int8_truncation_roundtrip_witness :
    (∀ x ∈ ([1/2, -9/10, 0] : List ℚ), -1 < x ∧ x < 1) ∧
    ((∃ r ∈ saveEmbeddingsBatch [] "b1" [("c1", [1/2, -9/10, 0])] (some "m"),
        r.bookId = "b1" ∧ r.chunkId = "c1" ∧
        r.embedding = List.replicate ([1/2, -9/10, 0] : List ℚ).length 0) ∧
     ("c1", List.replicate ([1/2, -9/10, 0] : List ℚ).length (0 : ℚ)) ∈
        getBookEmbeddings (saveEmbeddingsBatch [] "b1" [("c1", [1/2, -9/10, 0])]
          (some "m")) "b1" ∧
     (∀ p ∈ getBookEmbeddings (saveEmbeddingsBatch [] "b1"
          [("c1", [1/2, -9/10, 0])] (some "m")) "b1",
        p.1 = "c1" → p.2 = List.replicate ([1/2, -9/10, 0] : List ℚ).length (0 : ℚ))) :=
  ⟨by intro x hx; fin_cases hx <;> exact ⟨by norm_num, by norm_num⟩,
   int8_truncation_roundtrip [] "b1" "c1" [1/2, -9/10, 0] (some "m")
     (by intro x hx; fin_cases hx <;> exact ⟨by norm_num, by norm_num⟩)⟩

end ReadBook
